import Mathlib

/-!
# Verification of the jsl-codegen schema-to-AST transformation engine

Shallow embedding of the core of `jsl-codegen`: the schema model consumed by
the code generators (`jsl` crate, as used by `src/codegen/{go,typescript}/mod.rs`),
the Go and TypeScript transformation passes (`Codegen::transform`,
`Codegen::transform_subschema`, `Codegen::transform_prop`,
`Codegen::transform_for_id`), the TypeScript emitter
(`Codegen::serialize_subschema`), and the runtime semantics of the
discriminated-union `MarshalJSON` / `UnmarshalJSON` methods that the Go
backend generates (the templates in `go/mod.rs`, `serialize_subschema`,
`Ast::Struct` arm).

Modelling conventions:
* The `jsl` crate stores definitions, properties, enum values and
  discriminator mappings in `HashMap` / `HashSet`.  The embedding uses
  association lists; the list order stands for the hash-map iteration order
  observed by one particular run (that order is randomized per process,
  which is itself the subject of one of the theorems below).
* The Rust transformer pushes declarations into a `&mut Vec<Ast>` and pushes
  and pops path segments on a `&mut Vec<String>`.  The embedding is written
  in purely functional style: each function returns the list of declarations
  it pushed, in push order, and receives the current path as a value
  (`path ++ [segment]` replaces the balanced push/pop around each recursive
  call).  Callers append the returned declaration lists in call order.
* Rust `unreachable!` arms (a non-`Properties` schema inside a discriminator
  mapping), which the external validator makes impossible, are modelled as
  the empty property pair; no theorem below exercises them.
-/

/-! ## Identifier namer

`path_to_identifier` embeds `Codegen::path_to_identifier`
(`path.join("_").to_pascal_case()`, identical in the Go and TypeScript
backends).  `to_pascal_case` / `to_camel_case` come from the external
`Inflector` crate; they are modelled here on separator-delimited input:
split on `'_'`, uppercase the first letter of each word and lowercase the
rest (pascal), then lowercase the very first letter for camel case.  The
crate additionally splits on other separators and on case boundaries and
`to_class_case` also singularizes; no input used below exercises those. -/

def splitUnderscore : List Char → List (List Char)
  | [] => [[]]
  | c :: rest => match splitUnderscore rest with
      | [] => [[c]]
      | w :: ws => if c = '_' then [] :: w :: ws else (c :: w) :: ws

def capWord : List Char → List Char
  | [] => []
  | c :: cs => c.toUpper :: cs.map Char.toLower

def toPascalCase (s : String) : String :=
  String.mk (((splitUnderscore s.data).map capWord).flatten)

def toCamelCase (s : String) : String :=
  match (toPascalCase s).data with
  | [] => ""
  | c :: cs => String.mk (c.toLower :: cs)

/-- Model of `Inflector::to_class_case` (used for the Go tag member name);
identical to pascal case on the non-plural inputs appearing here. -/
def toClassCase (s : String) : String := toPascalCase s

/-- Model of Rust `Vec::join("_")`. -/
def joinUnderscore : List String → String
  | [] => ""
  | [s] => s
  | s :: rest => s ++ "_" ++ joinUnderscore rest

/-- Embeds `Codegen::path_to_identifier`: `path.join("_").to_pascal_case()`. -/
def path_to_identifier (path : List String) : String :=
  toPascalCase (joinUnderscore path)

/-! ## Schema model (input to the transformers)

Embeds the `jsl::schema::Form` / `jsl::Schema` shape that the two backends
consume (`Form::{Empty, Ref, Type, Enum, Elements, Properties, Values,
Discriminator}` and `Schema::definitions`). -/

inductive PrimTy
  | boolean
  | number
  | string
  | timestamp
deriving DecidableEq

inductive Form
  | empty
  | ref (def_name : String)
  | typ (t : PrimTy)
  | enum (vals : List String)
  | elements (sub : Form)
  | properties (required optional : List (String × Form)) (additional : Bool)
  | values (sub : Form)
  | discriminator (tag : String) (mapping : List (String × Form))

/-- Is the form a `Ref`? -/
def Form.isRef : Form → Bool
  | .ref _ => true
  | _ => false

/-- The root schema document: the `definitions()` mapping (in hash-map
iteration order) plus the root node's own form. -/
structure Schema where
  definitions : List (String × Form)
  root : Form

/-! ## TypeScript backend AST (`codegen/typescript/mod.rs`, `enum Ast`) -/

mutual
inductive TsAst
  | any
  | boolean
  | number
  | string
  | ident (id : String)
  | literal (lit : String)
  | array (a : TsAst)
  | map (a : TsAst)
  | type (id : String) (a : TsAst)
  | interface (name : String) (props : List TsProperty)
  | union (asts : List TsAst)

inductive TsProperty
  | mk (name : String) (required : Bool) (value : TsAst)
end

def TsProperty.name : TsProperty → String
  | .mk n _ _ => n

def TsProperty.required : TsProperty → Bool
  | .mk _ r _ => r

def TsProperty.value : TsProperty → TsAst
  | .mk _ _ v => v

namespace Ts

/-! Embeds `typescript::Codegen::{transform_subschema, transform_prop}`.
Each function returns (declarations pushed to `out` in push order,
returned inline expression resp. property). -/

mutual
def transform_subschema (path : List String) : Form → List TsAst × TsAst
  | .empty => ([], .any)
  | .ref def_name => ([], .ident (path_to_identifier [def_name]))
  | .typ t =>
      match t with
      | .boolean => ([], .boolean)
      | .number => ([], .number)
      | .string => ([], .string)
      | .timestamp => ([], .string)
  | .enum vals => ([], .union (literals vals))
  | .elements sub =>
      let (ds, a) := transform_subschema path sub
      (ds, .array a)
  | .properties required optional _ =>
      let (ds1, ps1) := transform_props path true required
      let (ds2, ps2) := transform_props path false optional
      let id := path_to_identifier path
      (ds1 ++ ds2 ++ [.interface id (ps1 ++ ps2)], .ident id)
  | .values sub =>
      let (ds, a) := transform_subschema path sub
      (ds, .map a)
  | .discriminator tag mapping =>
      let (ds, cases) := transform_cases path tag mapping
      (ds, .union cases)

def transform_props (path : List String) (required : Bool) :
    List (String × Form) → List TsAst × List TsProperty
  | [] => ([], [])
  | (name, prop) :: rest =>
      -- one loop iteration; the body of `transform_prop` is inlined here
      -- (see the standalone `Ts.transform_prop` wrapper below)
      let (ds, value) := transform_subschema (path ++ [name]) prop
      let p : TsProperty := .mk name required value
      let (ds2, ps) := transform_props path required rest
      (ds ++ ds2, p :: ps)

def transform_cases (path : List String) (tag : String) :
    List (String × Form) → List TsAst × List TsAst
  | [] => ([], [])
  | (name, case) :: rest =>
      let path' := path ++ [name]
      let tagProp : TsProperty := .mk tag true (.literal name)
      let (ds, c) :=
        match case with
        | .properties required optional _ =>
            let (ds1, ps1) := transform_props path' true required
            let (ds2, ps2) := transform_props path' false optional
            let id := path_to_identifier path'
            (ds1 ++ ds2 ++ [TsAst.interface id (tagProp :: (ps1 ++ ps2))],
             TsAst.ident id)
        | _ =>
            -- source: `unreachable!("non-prop form in mapping")`; never taken
            -- for validated schemas, modelled as a property-less case.
            let id := path_to_identifier path'
            ([TsAst.interface id [tagProp]], TsAst.ident id)
      let (ds2, cs) := transform_cases path tag rest
      (ds ++ ds2, c :: cs)

def literals : List String → List TsAst
  | [] => []
  | v :: rest => .literal v :: literals rest
end

/-- Embeds `typescript::Codegen::transform_prop` (the loop bodies in the
`Properties` and `Discriminator` arms call this; the mutual block above
inlines it for the termination checker). -/
def transform_prop (path : List String) (required : Bool) (name : String)
    (prop : Form) : List TsAst × TsProperty :=
  let (ds, value) := transform_subschema (path ++ [name]) prop
  (ds, .mk name required value)

/-- Embeds `typescript::Codegen::transform_for_id`: ensure the AST gets a
top-level identifier, returning (pushed declarations, identifier AST). -/
def transform_for_id (path : List String) (ast : TsAst) : List TsAst × TsAst :=
  match ast with
  | .interface _ _ => ([], .ident (path_to_identifier path))
  | .type _ _ => ([], .ident (path_to_identifier path))
  | .ident _ => ([], .ident (path_to_identifier path))
  | _ => ([.type (path_to_identifier path) ast], .ident (path_to_identifier path))

/-- Declarations produced for one definition (or the root): the body of one
iteration of the loop in `typescript::Codegen::transform`. -/
def def_decls (name : String) (f : Form) : List TsAst :=
  let (ds, ast) := transform_subschema [name] f
  ds ++ (transform_for_id [name] ast).1

def transform_defs : List (String × Form) → List TsAst
  | [] => []
  | (name, f) :: rest => def_decls name f ++ transform_defs rest

/-- Embeds `typescript::Codegen::transform`: all definitions in iteration
order, then the root under `root_name`. -/
def transform (root_name : String) (s : Schema) : List TsAst :=
  transform_defs s.definitions ++ def_decls root_name s.root

end Ts

section TsSanity

example : Ts.transform_subschema ["d"] (.enum ["RED", "GREEN"]) =
    ([], .union [.literal "RED", .literal "GREEN"]) := rfl

example : Ts.transform "Root" ⟨[("foo", .empty)], .ref "foo"⟩ =
    [.type "Foo" .any] := rfl

end TsSanity

/-! ## Go backend AST (`codegen/go/mod.rs`, `enum Ast`)

`GoAst.struct_decl` embeds `Ast::Struct`; its third argument embeds the
optional `(tag name, tag value → type identifier)` discriminator metadata
(a `HashMap` in the source, an association list in iteration order here). -/

mutual
inductive GoAst
  | any
  | boolean
  | number
  | string
  | time
  | literal (lit : String)
  | ident (id : String)
  | array (a : GoAst)
  | map (a : GoAst)
  | type (id : String) (a : GoAst)
  | var (name : String) (ty : GoAst) (val : GoAst)
  | struct_decl (name : String) (props : List GoProperty)
      (json : Option (String × List (String × GoAst)))

inductive GoProperty
  | mk (name : String) (json_name : String) (value : GoAst)
end

def GoProperty.name : GoProperty → String
  | .mk n _ _ => n

def GoProperty.json_name : GoProperty → String
  | .mk _ j _ => j

def GoProperty.value : GoProperty → GoAst
  | .mk _ _ v => v

namespace Go

/-! Embeds `go::Codegen::{transform_subschema, transform_prop}`.  Same
conventions as the TypeScript backend.  Note that `transform_prop` receives
the `required` flag but **does not record it**: the Go `Property` struct has
no required/optional member (`go/mod.rs`, `struct Property`), exactly as in
the source. -/

mutual
def transform_subschema (path : List String) : Form → List GoAst × GoAst
  | .empty => ([], .any)
  | .ref def_name => ([], .ident (path_to_identifier [def_name]))
  | .typ t =>
      match t with
      | .boolean => ([], .boolean)
      | .number => ([], .number)
      | .string => ([], .string)
      | .timestamp => ([], .time)
  | .enum vals =>
      let name := path_to_identifier path
      (.type name .string :: enum_vars name vals, .ident name)
  | .elements sub =>
      let (ds, a) := transform_subschema path sub
      (ds, .array a)
  | .properties required optional _ =>
      let (ds1, ps1) := transform_props path true required
      let (ds2, ps2) := transform_props path false optional
      let id := path_to_identifier path
      (ds1 ++ ds2 ++ [.struct_decl id (ps1 ++ ps2) none], .ident id)
  | .values sub =>
      let (ds, a) := transform_subschema path sub
      (ds, .map a)
  | .discriminator tag mapping =>
      let (ds, cases) := transform_cases path mapping
      let id := path_to_identifier path
      let tag_name := toClassCase tag
      let props : List GoProperty :=
        [.mk tag_name tag .string, .mk "Val" "-" .any]
      (ds ++ [.struct_decl id props (some (tag, cases))], .ident id)

def transform_props (path : List String) (required : Bool) :
    List (String × Form) → List GoAst × List GoProperty
  | [] => ([], [])
  | (name, prop) :: rest =>
      -- one loop iteration; the body of `transform_prop` is inlined here
      -- (see the standalone `Go.transform_prop` wrapper below)
      let (ds, value) := transform_subschema (path ++ [name]) prop
      let p : GoProperty := .mk (toPascalCase name) name value
      let (ds2, ps) := transform_props path required rest
      (ds ++ ds2, p :: ps)

def transform_cases (path : List String) :
    List (String × Form) → List GoAst × List (String × GoAst)
  | [] => ([], [])
  | (name, case) :: rest =>
      let path' := path ++ [name]
      let (ds, c) :=
        match case with
        | .properties required optional _ =>
            let (ds1, ps1) := transform_props path' true required
            let (ds2, ps2) := transform_props path' false optional
            let id := path_to_identifier path'
            (ds1 ++ ds2 ++ [GoAst.struct_decl id (ps1 ++ ps2) none],
             GoAst.ident id)
        | _ =>
            -- source: `unreachable!("non-prop form in mapping")`; never taken
            -- for validated schemas, modelled as a property-less case.
            let id := path_to_identifier path'
            ([GoAst.struct_decl id [] none], GoAst.ident id)
      let (ds2, cs) := transform_cases path rest
      (ds ++ ds2, (name, c) :: cs)

def enum_vars (name : String) : List String → List GoAst
  | [] => []
  | val :: rest =>
      .var (toCamelCase (name ++ "_" ++ val)) (.ident name) (.literal val) ::
        enum_vars name rest
end

set_option linter.unusedVariables false in
/-- Embeds `go::Codegen::transform_prop` (inlined in the mutual block above
for the termination checker).  The `required` parameter is accepted and
ignored, as in the source. -/
def transform_prop (path : List String) (required : Bool) (name : String)
    (prop : Form) : List GoAst × GoProperty :=
  let (ds, value) := transform_subschema (path ++ [name]) prop
  (ds, .mk (toPascalCase name) name value)

/-- Embeds `go::Codegen::transform_for_id`. -/
def transform_for_id (path : List String) (ast : GoAst) : List GoAst × GoAst :=
  match ast with
  | .struct_decl _ _ _ => ([], .ident (path_to_identifier path))
  | .type _ _ => ([], .ident (path_to_identifier path))
  | .ident _ => ([], .ident (path_to_identifier path))
  | _ => ([.type (path_to_identifier path) ast], .ident (path_to_identifier path))

/-- Declarations produced for one definition (or the root): the body of one
iteration of the loop in `go::Codegen::transform`. -/
def def_decls (name : String) (f : Form) : List GoAst :=
  let (ds, ast) := transform_subschema [name] f
  ds ++ (transform_for_id [name] ast).1

def transform_defs : List (String × Form) → List GoAst
  | [] => []
  | (name, f) :: rest => def_decls name f ++ transform_defs rest

/-- Embeds `go::Codegen::transform`: all definitions in iteration order,
then the root under `root_name`. -/
def transform (root_name : String) (s : Schema) : List GoAst :=
  transform_defs s.definitions ++ def_decls root_name s.root

/-- Name under which a Go AST node declares a type, if any (`type` and
`struct` declarations; `var` declarations bind values, not types). -/
def decl_name : GoAst → Option String
  | .type id _ => some id
  | .struct_decl id _ _ => some id
  | _ => none

def decl_names (l : List GoAst) : List String := l.filterMap decl_name

end Go

/-- Name under which a TypeScript AST node declares a type, if any. -/
def Ts.decl_name : TsAst → Option String
  | .type id _ => some id
  | .interface id _ => some id
  | _ => none

def Ts.decl_names (l : List TsAst) : List String := l.filterMap Ts.decl_name

section GoSanity

example : Go.transform_subschema ["color"] (.enum ["RED", "GREEN"]) =
    ([.type "Color" .string,
      .var "colorRed" (.ident "Color") (.literal "RED"),
      .var "colorGreen" (.ident "Color") (.literal "GREEN")],
     .ident "Color") := rfl

example : Go.transform "Root"
    ⟨[], .discriminator "type" [("circle", .properties [("radius", .typ .number)] [] false)]⟩ =
    [.struct_decl "RootCircle" [.mk "Radius" "radius" .number] none,
     .struct_decl "Root" [.mk "Type" "type" .string, .mk "Val" "-" .any]
       (some ("type", [("circle", .ident "RootCircle")]))] := rfl

end GoSanity

/-! ## TypeScript emitter (`typescript::Codegen::serialize_subschema`)

Returns the text written for one AST node; `none` models the panic in the
`Union` arm (`&asts[..asts.len() - 1]` underflows and `asts.last().unwrap()`
unwraps `None` when the union has no members).  Rust's `{:?}` string
formatting is modelled as plain quoting (no value used here needs escapes). -/

def quoteDebug (s : String) : String := "\"" ++ s ++ "\""

namespace Ts

mutual
def serialize_subschema : TsAst → Option String
  | .any => some "any"
  | .boolean => some "boolean"
  | .number => some "number"
  | .string => some "string"
  | .ident id => some id
  | .literal lit => some (quoteDebug lit)
  | .array a =>
      match serialize_subschema a with
      | some s => some (s ++ "[]")
      | none => none
  | .map a =>
      match serialize_subschema a with
      | some s => some ("\x7b [name: string]: " ++ s ++ " \x7d")
      | none => none
  | .type id a =>
      match serialize_subschema a with
      | some s => some ("export type " ++ id ++ " = " ++ s ++ ";\n")
      | none => none
  | .interface name props =>
      match serialize_props props with
      | some body => some ("export interface " ++ name ++ " \x7b\n" ++ body ++ "\x7d\n")
      | none => none
  | .union asts => serialize_union asts

def serialize_props : List TsProperty → Option String
  | [] => some ""
  | .mk name required value :: rest =>
      match serialize_subschema value with
      | some v =>
          match serialize_props rest with
          | some r =>
              some ("  " ++ name ++ (if required then "" else "?") ++ ": " ++
                v ++ ";\n" ++ r)
          | none => none
      | none => none

def serialize_union : List TsAst → Option String
  | [] => none
  | [a] => serialize_subschema a
  | a :: b :: rest =>
      match serialize_subschema a with
      | some s =>
          match serialize_union (b :: rest) with
          | some r => some (s ++ " | " ++ r)
          | none => none
      | none => none
end

/-- Embeds `typescript::Codegen::serialize`: each declaration in order to a
single output sink. -/
def serialize : List TsAst → Option String
  | [] => some ""
  | a :: rest =>
      match serialize_subschema a with
      | some s =>
          match serialize rest with
          | some r => some (s ++ r)
          | none => none
      | none => none

end Ts

section SerializeSanity

example : Ts.serialize (Ts.transform "Root" ⟨[("a", .typ .string)], .empty⟩) =
    some "export type A = string;\nexport type Root = any;\n" := rfl

example : Ts.serialize_subschema (.union []) = none := rfl

end SerializeSanity

/-! ## Runtime semantics of the generated Go discriminated-union codec

For every discriminator aggregate, the Go backend emits an `UnmarshalJSON`
and a `MarshalJSON` method (`go/mod.rs`, `serialize_subschema`, `Ast::Struct`
arm when `json` is present).  The definitions below give the runtime
semantics of those generated methods, over a model of parsed JSON documents
and of the in-memory Go values of the generated variant aggregate types.

Modelling notes:
* JSON numbers (Go `float64`) are carried as `Int`: no arithmetic is ever
  performed on them, they are opaque payloads.
* `time.Time` values are carried as their RFC 3339 string; format validation
  and normalization by the `time` package are not modelled (no claim below
  concerns them).
* A Go `interface{}` value (the `Empty` form) is modelled as the parsed JSON
  tree itself, which is how `encoding/json` decodes into `interface{}`.
* Go maps are modelled as key-sorted association lists (the canonical
  in-memory representation; `encoding/json` marshals maps in sorted key
  order, so on these the list order is the emission order).
* Every generated struct field carries `json:"<wire>,omitempty"`
  (`go/mod.rs`, the field-tag `writeln!` in the `Ast::Struct` arm), so
  marshalling a field whose value is Go-empty omits it, and unmarshalling
  leaves an absent field at its zero value. -/

inductive Json
  | null
  | boolean (b : Bool)
  | number (n : Int)
  | string (s : String)
  | array (elems : List Json)
  | obj (fields : List (String × Json))

/-- Go types of the fields of a generated variant aggregate: the subset of
`GoAst` type expressions the transformer puts in field position, minus named
references (nested named aggregates are not needed by any claim). -/
inductive GoTy
  | boolean
  | number
  | string
  | time
  | any
  | array (t : GoTy)
  | map (t : GoTy)
deriving DecidableEq

/-- In-memory Go values for `GoTy`. -/
inductive GoVal
  | boolean (b : Bool)
  | number (n : Int)
  | string (s : String)
  | time (s : String)
  | any (j : Json)
  | array (elems : List GoVal)
  | map (entries : List (String × GoVal))

/-- The zero value of a Go type (what a field keeps when its key is absent
from the JSON object or bound to `null`). -/
def zeroOf : GoTy → GoVal
  | .boolean => .boolean false
  | .number => .number 0
  | .string => .string ""
  | .time => .time ""
  | .any => .any .null
  | .array _ => .array []
  | .map _ => .map []

/-- Go `encoding/json` emptiness, deciding `omitempty` omission: false, 0,
empty string, nil interface, and zero-length array/slice/map are empty;
struct values (`time.Time`) never are. -/
def isEmptyGo : GoVal → Bool
  | .boolean b => !b
  | .number n => n == 0
  | .string s => s == ""
  | .time _ => false
  | .any .null => true
  | .any _ => false
  | .array l => l.isEmpty
  | .map l => l.isEmpty

/-- Strictly increasing key list (canonical representation of a Go map). -/
def chainLt : List String → Bool
  | [] => true
  | [_] => true
  | a :: b :: rest => (decide (a < b)) && chainLt (b :: rest)

mutual
def wellTyped : GoTy → GoVal → Bool
  | .boolean, .boolean _ => true
  | .number, .number _ => true
  | .string, .string _ => true
  | .time, .time _ => true
  | .any, .any _ => true
  | .array t, .array l => wellTypedList t l
  | .map t, .map l => wellTypedEntries t l && chainLt (l.map Prod.fst)
  | _, _ => false

def wellTypedList (t : GoTy) : List GoVal → Bool
  | [] => true
  | v :: rest => wellTyped t v && wellTypedList t rest

def wellTypedEntries (t : GoTy) : List (String × GoVal) → Bool
  | [] => true
  | (_, v) :: rest => wellTyped t v && wellTypedEntries t rest
end

/-! Marshalling a single Go value to JSON (`encoding/json` semantics on the
modelled types). -/

mutual
def marshalVal : GoVal → Json
  | .boolean b => .boolean b
  | .number n => .number n
  | .string s => .string s
  | .time s => .string s
  | .any j => j
  | .array l => .array (marshalValList l)
  | .map l => .obj (marshalValEntries l)

def marshalValList : List GoVal → List Json
  | [] => []
  | v :: rest => marshalVal v :: marshalValList rest

def marshalValEntries : List (String × GoVal) → List (String × Json)
  | [] => []
  | (k, v) :: rest => (k, marshalVal v) :: marshalValEntries rest
end

/-- Value bound to a key in a JSON object under Go's duplicate-key rule
(later bindings overwrite earlier ones). -/
def jsonLookup (k : String) : List (String × Json) → Option Json
  | [] => none
  | (k', v) :: rest =>
      match jsonLookup k rest with
      | some r => some r
      | none => if k' = k then some v else none

/-! Unmarshalling JSON into a Go value of known type: `none` is a
`json.Unmarshal` type error; `null` is a no-op, leaving the zero value. -/

mutual
def unmarshalVal : GoTy → Json → Option GoVal
  | t, .null => some (zeroOf t)
  | .boolean, .boolean b => some (.boolean b)
  | .number, .number n => some (.number n)
  | .string, .string s => some (.string s)
  | .time, .string s => some (.time s)
  | .any, j => some (.any j)
  | .array t, .array l =>
      match unmarshalValList t l with
      | some vs => some (.array vs)
      | none => none
  | .map t, .obj l =>
      match unmarshalValEntries t l with
      | some es => some (.map es)
      | none => none
  | _, _ => none

def unmarshalValList (t : GoTy) : List Json → Option (List GoVal)
  | [] => some []
  | j :: rest =>
      match unmarshalVal t j with
      | some v =>
          match unmarshalValList t rest with
          | some vs => some (v :: vs)
          | none => none
      | none => none

def unmarshalValEntries (t : GoTy) : List (String × Json) → Option (List (String × GoVal))
  | [] => some []
  | (k, j) :: rest =>
      match unmarshalVal t j with
      | some v =>
          match unmarshalValEntries t rest with
          | some es => some ((k, v) :: es)
          | none => none
      | none => none
end

/-- One field of a generated variant aggregate: the Go member name, the wire
name from the `json:"…"` tag, and the field's Go type (the rendering of a
`Property { name, json_name, value }` emitted by `serialize_subschema`). -/
structure GoField where
  goName : String
  wire : String
  ty : GoTy
deriving DecidableEq

/-- A generated variant aggregate type (`type <name> struct { … }`). -/
structure GoStructDef where
  name : String
  fields : List GoField
deriving DecidableEq

/-- The dynamic value held in the holder's `Val interface{}` member: the
runtime type of the stored aggregate value and its field values in
declaration order. -/
structure VariantVal where
  typeName : String
  fields : List GoVal

/-- The in-memory discriminator holder struct: the tag member (a string) and
the untyped `Val` member (`none` models a nil interface). -/
structure Holder where
  tag : String
  val : Option VariantVal

/-- Result of the generated `MarshalJSON`: a JSON document, a returned Go
`error`, or a process-aborting Go `panic`. -/
inductive MarshalResult
  | ok (j : Json)
  | err (msg : String)
  | fatal (msg : String)

/-- The flattened field list that marshalling the generated anonymous
`data` struct contributes for the embedded variant value: each field in
declaration order, omitted when Go-empty (`omitempty`) and suppressed when
its wire name collides with the shallower tag field (Go's embedded-field
name-conflict rule). -/
def structFieldsJson (tag_wire : String) : List GoField → List GoVal → List (String × Json)
  | f :: fs, v :: vs =>
      let rest := structFieldsJson tag_wire fs vs
      if f.wire = tag_wire then rest
      else if isEmptyGo v then rest
      else (f.wire, marshalVal v) :: rest
  | _, _ => []

/-- Unmarshalling a JSON object's bindings into the fields of a variant
aggregate: each declared field takes the (last) binding of its wire name, or
keeps its zero value when absent. -/
def unmarshalFields : List GoField → List (String × Json) → Option (List GoVal)
  | [], _ => some []
  | f :: fs, l =>
      let fv : Option GoVal :=
        match jsonLookup f.wire l with
        | some jv => unmarshalVal f.ty jv
        | none => some (zeroOf f.ty)
      match fv with
      | some v =>
          match unmarshalFields fs l with
          | some vs => some (v :: vs)
          | none => none
      | none => none

/-- Unmarshalling a JSON document into a value of a variant aggregate type
(`var data <T>; json.Unmarshal(buf, &data)` in pass 2 of the generated
`UnmarshalJSON`). -/
def unmarshalStruct (d : GoStructDef) : Json → Option (List GoVal)
  | .obj l => unmarshalFields d.fields l
  | .null => some (d.fields.map (fun f => zeroOf f.ty))
  | _ => none

/-- Pass 1 of the generated `UnmarshalJSON`:
`var x struct { Tag string \`json:"<tag>"\` }; json.Unmarshal(buf, &x)`.
Only the tag binding of the raw object is consulted; every other field is
ignored.  A non-object document or a non-string tag value is a decode
error (`none`); an absent or `null` tag leaves the zero value `""`. -/
def pass1Tag (tag_wire : String) : Json → Option String
  | .null => some ""
  | .obj l =>
      match jsonLookup tag_wire l with
      | some (.string s) => some s
      | some .null => some ""
      | some _ => none
      | none => some ""
  | _ => none

/-- Runtime semantics of the generated `MarshalJSON` (`go/mod.rs`,
`serialize_subschema`, lines writing `func (s <name>) MarshalJSON`):
`switch val := s.Val.(type)` tries each case of the discriminator metadata
in iteration order against the runtime type of `s.Val`; on a match it
builds the anonymous struct `data` holding the tag field (wire name
`json.0`, value `s.<Tag>` — the holder's own tag member) followed by the
embedded variant value, and marshals it as one flat object; if no case
matches (including a nil `Val`), execution reaches
`panic("invalid discriminator tag")`. -/
def generatedMarshalJSON (tag_wire : String) (cases : List (String × GoStructDef))
    (s : Holder) : MarshalResult :=
  match s.val with
  | some val =>
      match cases.find? (fun c => c.2.name == val.typeName) with
      | some (_, d) =>
          .ok (.obj ((tag_wire, .string s.tag) ::
            structFieldsJson tag_wire d.fields val.fields))
      | none => .fatal "invalid discriminator tag"
  | none => .fatal "invalid discriminator tag"

/-- Runtime semantics of the generated `UnmarshalJSON` (`go/mod.rs`,
`serialize_subschema`, lines writing `func (s *<name>) UnmarshalJSON`):
pass 1 (`pass1Tag`) reads only the tag field; `switch x.Tag` selects the
case whose tag value matches; pass 2 re-parses the entire document into
that case's aggregate type and stores it in `s.Val`; in every non-error
path `s.Tag = x.Tag` runs after the switch.  An unmatched tag falls through
the switch, leaving `Val` nil on a fresh receiver.  `none` models a
returned decode error. -/
def generatedUnmarshalJSON (tag_wire : String) (cases : List (String × GoStructDef))
    (j : Json) : Option Holder :=
  match pass1Tag tag_wire j with
  | none => none
  | some t =>
      match cases.find? (fun c => c.1 == t) with
      | some (_, d) =>
          match unmarshalStruct d j with
          | some vs => some ⟨t, some ⟨d.name, vs⟩⟩
          | none => none
      | none => some ⟨t, none⟩

/-- Valid in-memory content for a variant aggregate: one value per declared
field, each well-typed at its field's Go type. -/
def fieldsWellTyped : List GoField → List GoVal → Bool
  | [], [] => true
  | f :: fs, v :: vs => wellTyped f.ty v && fieldsWellTyped fs vs
  | _, _ => false

section CodecSanity

example :
    generatedMarshalJSON "type"
      [("circle", ⟨"RootCircle", [⟨"Radius", "radius", .number⟩]⟩)]
      ⟨"circle", some ⟨"RootCircle", [.number 5]⟩⟩ =
    .ok (.obj [("type", .string "circle"), ("radius", .number 5)]) := rfl

example :
    generatedUnmarshalJSON "type"
      [("circle", ⟨"RootCircle", [⟨"Radius", "radius", .number⟩]⟩)]
      (.obj [("type", .string "circle"), ("radius", .number 5)]) =
    some ⟨"circle", some ⟨"RootCircle", [.number 5]⟩⟩ := rfl

-- a Go-empty field is omitted on encode and restored as the zero value
example :
    generatedMarshalJSON "type"
      [("circle", ⟨"RootCircle", [⟨"Radius", "radius", .number⟩]⟩)]
      ⟨"circle", some ⟨"RootCircle", [.number 0]⟩⟩ =
    .ok (.obj [("type", .string "circle")]) := rfl

example :
    generatedUnmarshalJSON "type"
      [("circle", ⟨"RootCircle", [⟨"Radius", "radius", .number⟩]⟩)]
      (.obj [("type", .string "circle")]) =
    some ⟨"circle", some ⟨"RootCircle", [.number 0]⟩⟩ := rfl

end CodecSanity

/-! ## Helper characterizations of the transformation loops -/

theorem Ts.literals_eq (vals : List String) :
    Ts.literals vals = vals.map TsAst.literal := by
  induction vals with
  | nil => rfl
  | cons v rest ih => rw [Ts.literals, ih, List.map_cons]

theorem Go.enum_vars_eq (name : String) (vals : List String) :
    Go.enum_vars name vals =
      vals.map (fun v =>
        GoAst.var (toCamelCase (name ++ "_" ++ v)) (.ident name) (.literal v)) := by
  induction vals with
  | nil => rfl
  | cons v rest ih => rw [Go.enum_vars, ih, List.map_cons]

theorem ts_transform_props_map (path : List String) (r : Bool)
    (l : List (String × Form)) :
    (Ts.transform_props path r l).2.map (fun p => (p.name, p.required)) =
      l.map (fun x => (x.1, r)) := by
  induction l with
  | nil => rfl
  | cons x rest ih =>
      obtain ⟨name, prop⟩ := x
      rcases hsub : Ts.transform_subschema (path ++ [name]) prop with ⟨ds, value⟩
      rcases hrest : Ts.transform_props path r rest with ⟨ds2, ps⟩
      have ih' : ps.map (fun p => (p.name, p.required)) =
          rest.map (fun x => (x.1, r)) := by rw [hrest] at ih; exact ih
      simp only [Ts.transform_props, hsub, hrest, List.map_cons]
      rw [ih']; rfl

theorem go_transform_props_map (path : List String) (r : Bool)
    (l : List (String × Form)) :
    (Go.transform_props path r l).2.map
        (fun p => (p.name, p.json_name)) =
      l.map (fun x => (toPascalCase x.1, x.1)) := by
  induction l with
  | nil => rfl
  | cons x rest ih =>
      obtain ⟨name, prop⟩ := x
      rcases hsub : Go.transform_subschema (path ++ [name]) prop with ⟨ds, value⟩
      rcases hrest : Go.transform_props path r rest with ⟨ds2, ps⟩
      have ih' : ps.map (fun p => (p.name, p.json_name)) =
          rest.map (fun x => (toPascalCase x.1, x.1)) := by rw [hrest] at ih; exact ih
      simp only [Go.transform_props, hsub, hrest, List.map_cons]
      rw [ih']; rfl

/-! ## Claim theorems -/

/-- C10: a schema containing a Discriminator whose mapping has zero cases is
transformed to an AST containing an empty `Union`, and serializing that AST
panics — the TypeScript `Union` serialization arm slices
`asts[..asts.len() - 1]` and unwraps `asts.last()` without guarding the
empty case (modelled as `none`) — instead of returning an error or emitting
output. -/
theorem c10_empty_discriminator_panics (root_name tag : String) :
    Ts.serialize (Ts.transform root_name ⟨[], .discriminator tag []⟩) = none := rfl

/-- C2: the transform-then-serialize pipeline is NOT invariant under the
iteration order of the schema's definitions map (a `std::collections::HashMap`
in the `jsl` crate, whose iteration order is randomized per process): the
same two definitions presented in the two possible iteration orders produce
different output bytes (TypeScript) and differently ordered declarations
(Go), refuting run-to-run byte-identical output. -/
theorem c2_output_depends_on_iteration_order :
    Ts.serialize (Ts.transform "Root"
        ⟨[("a", .typ .string), ("b", .typ .string)], .empty⟩) ≠
      Ts.serialize (Ts.transform "Root"
        ⟨[("b", .typ .string), ("a", .typ .string)], .empty⟩) ∧
    Go.decl_names (Go.transform "Root"
        ⟨[("a", .typ .string), ("b", .typ .string)], .empty⟩) ≠
      Go.decl_names (Go.transform "Root"
        ⟨[("b", .typ .string), ("a", .typ .string)], .empty⟩) := by
  constructor <;> decide

/-- C9 counterexample: in the TypeScript backend, transforming an Enum node
emits no declaration at all and returns an inline union of string-literal
types (not a reference to a named type): for a nested enum the whole
schema's output contains only the enclosing aggregate's declaration. -/
theorem c9_cx_ts_enum_emits_no_declaration :
    Ts.transform_subschema ["Root", "c"] (.enum ["RED", "GREEN"]) =
      ([], .union [.literal "RED", .literal "GREEN"]) ∧
    Ts.decl_names (Ts.transform "Root"
        ⟨[], .properties [("c", .enum ["RED", "GREEN"])] [] false⟩) = ["Root"] :=
  ⟨rfl, rfl⟩

/-- C9 (amended): in the Go backend (no native closed string-unions),
transforming an Enum node emits a named string-type declaration plus one
addressable `var` constant per value — named by camel-casing the enum's
identifier concatenated with the value — each constant referencing the enum
type, and returns a reference to the named type.  In the TypeScript backend
an Enum node transforms to an inline union of string-literal types with no
declaration (a named alias arises only through top-level coercion). -/
theorem c9_enum_emission (path : List String) (vals : List String) :
    Go.transform_subschema path (.enum vals) =
      (GoAst.type (path_to_identifier path) .string ::
        vals.map (fun v =>
          GoAst.var (toCamelCase (path_to_identifier path ++ "_" ++ v))
            (.ident (path_to_identifier path)) (.literal v)),
       .ident (path_to_identifier path)) ∧
    Ts.transform_subschema path (.enum vals) =
      ([], .union (vals.map TsAst.literal)) := by
  constructor
  · rw [Go.transform_subschema, Go.enum_vars_eq]
  · rw [Ts.transform_subschema, Ts.literals_eq]

/-- C8 counterexample: the Go backend does not mark fields required or
optional at all — transforming a Properties node with a required field `a`
yields an AST identical to transforming one with `a` optional (the
`required` flag is dropped by `go::Codegen::transform_prop`, and every
generated field is serialized with `omitempty`). -/
theorem c8_cx_go_required_not_marked :
    Go.transform_subschema ["d"] (.properties [("a", .typ .string)] [] false) =
      Go.transform_subschema ["d"] (.properties [] [("a", .typ .string)] false) :=
  rfl

/-- C8 (amended): transforming a Properties node with required map R and
optional map O arranges, in both backends, exactly one aggregate declaration
for the node itself (after the declarations contributed by its children),
whose field list is every field of R followed by every field of O with wire
names preserved verbatim; the TypeScript backend marks the R fields required
and the O fields optional, while the Go backend records no required/optional
marking (its fields carry only the target-cased name and the verbatim wire
name). -/
theorem c8_aggregate_field_fidelity (path : List String)
    (req opt : List (String × Form)) (b : Bool) :
    (Ts.transform_subschema path (.properties req opt b)).2 =
      .ident (path_to_identifier path) ∧
    (∃ cds ps,
      (Ts.transform_subschema path (.properties req opt b)).1 =
        cds ++ [.interface (path_to_identifier path) ps] ∧
      ps.map (fun p => (p.name, p.required)) =
        req.map (fun x => (x.1, true)) ++ opt.map (fun x => (x.1, false))) ∧
    (Go.transform_subschema path (.properties req opt b)).2 =
      .ident (path_to_identifier path) ∧
    (∃ gds gps,
      (Go.transform_subschema path (.properties req opt b)).1 =
        gds ++ [.struct_decl (path_to_identifier path) gps none] ∧
      gps.map (fun p => (p.name, p.json_name)) =
        req.map (fun x => (toPascalCase x.1, x.1)) ++
          opt.map (fun x => (toPascalCase x.1, x.1))) := by
  rcases h1 : Ts.transform_props path true req with ⟨ds1, ps1⟩
  rcases h2 : Ts.transform_props path false opt with ⟨ds2, ps2⟩
  rcases g1 : Go.transform_props path true req with ⟨gds1, gps1⟩
  rcases g2 : Go.transform_props path false opt with ⟨gds2, gps2⟩
  have e1 : ps1.map (fun p => (p.name, p.required)) =
      req.map (fun x => (x.1, true)) := by
    have t := ts_transform_props_map path true req; rw [h1] at t; exact t
  have e2 : ps2.map (fun p => (p.name, p.required)) =
      opt.map (fun x => (x.1, false)) := by
    have t := ts_transform_props_map path false opt; rw [h2] at t; exact t
  have f1 : gps1.map (fun p => (p.name, p.json_name)) =
      req.map (fun x => (toPascalCase x.1, x.1)) := by
    have t := go_transform_props_map path true req; rw [g1] at t; exact t
  have f2 : gps2.map (fun p => (p.name, p.json_name)) =
      opt.map (fun x => (toPascalCase x.1, x.1)) := by
    have t := go_transform_props_map path false opt; rw [g2] at t; exact t
  refine ⟨?_, ⟨ds1 ++ ds2, ps1 ++ ps2, ?_, ?_⟩, ?_, ⟨gds1 ++ gds2, gps1 ++ gps2, ?_, ?_⟩⟩
  · simp [Ts.transform_subschema, h1, h2]
  · simp [Ts.transform_subschema, h1, h2]
  · rw [List.map_append, e1, e2]
  · simp [Go.transform_subschema, g1, g2]
  · simp [Go.transform_subschema, g1, g2]
  · rw [List.map_append, f1, f2]

/-- C5: the generated decode is two-pass — whenever it succeeds, there is a
tag string obtained by pass 1 (`pass1Tag`, which parses only the tag binding
of the raw object) that selects the case; on a match, pass 2 re-parses the
entire raw document — tag field included — into that case's aggregate type
(`unmarshalStruct d j` receives the whole of `j`), the holder's `Val` holds
the result, and the holder's tag member is set to the parsed tag value.
Moreover pass 1 depends only on the tag binding of the raw object, ignoring
every other field. -/
theorem c5_decode_two_pass :
    (∀ (tag_wire : String) (cases : List (String × GoStructDef)) (j : Json)
        (s : Holder),
      generatedUnmarshalJSON tag_wire cases j = some s →
      ∃ t, pass1Tag tag_wire j = some t ∧ s.tag = t ∧
        ((∃ cn d vs, cases.find? (fun c => c.1 == t) = some (cn, d) ∧
            unmarshalStruct d j = some vs ∧ s.val = some ⟨d.name, vs⟩) ∨
          (cases.find? (fun c => c.1 == t) = none ∧ s.val = none))) ∧
    (∀ (tag_wire : String) (l l' : List (String × Json)),
      jsonLookup tag_wire l = jsonLookup tag_wire l' →
      pass1Tag tag_wire (.obj l) = pass1Tag tag_wire (.obj l')) := by
  constructor
  · intro tw cases j s h
    cases hp : pass1Tag tw j with
    | none =>
        simp only [generatedUnmarshalJSON, hp] at h
        exact Option.noConfusion h
    | some t =>
        refine ⟨t, rfl, ?_⟩
        cases hf : cases.find? (fun c => c.1 == t) with
        | none =>
            simp only [generatedUnmarshalJSON, hp, hf] at h
            injection h with h
            exact ⟨(congrArg Holder.tag h).symm, Or.inr ⟨rfl, (congrArg Holder.val h).symm⟩⟩
        | some cd =>
            obtain ⟨cn, d⟩ := cd
            cases hu : unmarshalStruct d j with
            | none =>
                simp only [generatedUnmarshalJSON, hp, hf, hu] at h
                exact Option.noConfusion h
            | some vs =>
                simp only [generatedUnmarshalJSON, hp, hf, hu] at h
                injection h with h
                exact ⟨(congrArg Holder.tag h).symm,
                  Or.inl ⟨cn, d, vs, rfl, hu, (congrArg Holder.val h).symm⟩⟩
  · intro tw l l' h
    rw [pass1Tag, pass1Tag, h]

/-- C5 witness: a concrete decode, with the two-pass characterization
instantiated at it. -/
theorem c5_witness :
    ∃ t, pass1Tag "type"
        (.obj [("type", .string "circle"), ("radius", .number 5)]) = some t ∧
      (Holder.mk "circle" (some ⟨"RootCircle", [.number 5]⟩)).tag = t ∧
      ((∃ cn d vs,
          ([("circle", (⟨"RootCircle", [⟨"Radius", "radius", .number⟩]⟩ : GoStructDef))].find?
              (fun c => c.1 == t)) = some (cn, d) ∧
          unmarshalStruct d
              (.obj [("type", .string "circle"), ("radius", .number 5)]) = some vs ∧
          (Holder.mk "circle" (some ⟨"RootCircle", [.number 5]⟩)).val = some ⟨d.name, vs⟩) ∨
        (([("circle", (⟨"RootCircle", [⟨"Radius", "radius", .number⟩]⟩ : GoStructDef))].find?
            (fun c => c.1 == t)) = none ∧
          (Holder.mk "circle" (some ⟨"RootCircle", [.number 5]⟩)).val = none)) :=
  c5_decode_two_pass.1 "type"
    [("circle", ⟨"RootCircle", [⟨"Radius", "radius", .number⟩]⟩)]
    (.obj [("type", .string "circle"), ("radius", .number 5)])
    ⟨"circle", some ⟨"RootCircle", [.number 5]⟩⟩ rfl

/-- C6: whenever the generated encode succeeds (the runtime type of the
holder's active variant matches a case), the emitted document is a single
flat JSON object whose tag binding carries the holder's own tag member —
`data.Tag = s.<Tag>`, never the matched case's name — followed by the
variant's own fields. -/
theorem c6_encode_tag_from_holder (tag_wire : String)
    (cases : List (String × GoStructDef)) (s : Holder) (val : VariantVal)
    (cn : String) (d : GoStructDef)
    (hv : s.val = some val)
    (hf : cases.find? (fun c => c.2.name == val.typeName) = some (cn, d)) :
    generatedMarshalJSON tag_wire cases s =
      .ok (.obj ((tag_wire, .string s.tag) ::
        structFieldsJson tag_wire d.fields val.fields)) := by
  simp only [generatedMarshalJSON, hv, hf]

/-- C6 witness: a holder whose tag member disagrees with the matched case's
name still emits its own tag member. -/
theorem c6_witness :
    (Holder.mk "weird" (some ⟨"RootCircle", [.number 5]⟩)).val =
      some ⟨"RootCircle", [.number 5]⟩ ∧
    generatedMarshalJSON "type"
        [("circle", ⟨"RootCircle", [⟨"Radius", "radius", .number⟩]⟩)]
        ⟨"weird", some ⟨"RootCircle", [.number 5]⟩⟩ =
      .ok (.obj [("type", .string "weird"), ("radius", .number 5)]) :=
  ⟨rfl,
    c6_encode_tag_from_holder "type"
      [("circle", ⟨"RootCircle", [⟨"Radius", "radius", .number⟩]⟩)]
      ⟨"weird", some ⟨"RootCircle", [.number 5]⟩⟩
      ⟨"RootCircle", [.number 5]⟩ "circle"
      ⟨"RootCircle", [⟨"Radius", "radius", .number⟩]⟩ rfl rfl⟩

/-- C7: if encode runs while the runtime type of the holder's active variant
(`s.Val`, including the nil case) matches none of the mapping's cases, the
generated code reaches `panic("invalid discriminator tag")` — a fatal abort,
not an error value returned to the caller. -/
theorem c7_encode_aborts_on_unknown_variant (tag_wire : String)
    (cases : List (String × GoStructDef)) (s : Holder)
    (h : ∀ c ∈ cases, s.val.map VariantVal.typeName ≠ some c.2.name) :
    generatedMarshalJSON tag_wire cases s = .fatal "invalid discriminator tag" := by
  cases hv : s.val with
  | none => simp only [generatedMarshalJSON, hv]
  | some val =>
      have hf : cases.find? (fun c => c.2.name == val.typeName) = none := by
        rw [List.find?_eq_none]
        intro c hc
        have hne := h c hc
        rw [hv] at hne
        simp only [Option.map_some, ne_eq, Option.some.injEq] at hne
        simp only [beq_iff_eq]
        exact fun e => hne (e ▸ rfl)
      simp only [generatedMarshalJSON, hv, hf]

/-- C7 witness: encoding a holder whose variant's runtime type is absent
from the mapping aborts. -/
theorem c7_witness :
    (∀ c ∈ [("circle", (⟨"RootCircle", [⟨"Radius", "radius", .number⟩]⟩ : GoStructDef))],
      (Holder.mk "circle" (some ⟨"Square", [.number 4]⟩)).val.map VariantVal.typeName ≠
        some c.2.name) ∧
    generatedMarshalJSON "type"
        [("circle", ⟨"RootCircle", [⟨"Radius", "radius", .number⟩]⟩)]
        ⟨"circle", some ⟨"Square", [.number 4]⟩⟩ =
      .fatal "invalid discriminator tag" := by
  have hyp : ∀ c ∈ [("circle", (⟨"RootCircle", [⟨"Radius", "radius", .number⟩]⟩ : GoStructDef))],
      (Holder.mk "circle" (some ⟨"Square", [.number 4]⟩)).val.map VariantVal.typeName ≠
        some c.2.name := by
    intro c hc
    rw [List.mem_singleton] at hc
    subst hc
    simp
  exact ⟨hyp,
    c7_encode_aborts_on_unknown_variant "type"
      [("circle", ⟨"RootCircle", [⟨"Radius", "radius", .number⟩]⟩)]
      ⟨"circle", some ⟨"Square", [.number 4]⟩⟩ hyp⟩

/-! ## Top-level nameability helpers -/

theorem ts_decl_names_append (l1 l2 : List TsAst) :
    Ts.decl_names (l1 ++ l2) = Ts.decl_names l1 ++ Ts.decl_names l2 :=
  List.filterMap_append l1 l2 Ts.decl_name

theorem go_decl_names_append (l1 l2 : List GoAst) :
    Go.decl_names (l1 ++ l2) = Go.decl_names l1 ++ Go.decl_names l2 :=
  List.filterMap_append l1 l2 Go.decl_name

/-- Every definition whose form is not `Ref` leaves a declaration named by
its own one-segment path in the TypeScript output. -/
theorem ts_def_decls_mem (name : String) (f : Form) (h : f.isRef = false) :
    path_to_identifier [name] ∈ Ts.decl_names (Ts.def_decls name f) := by
  cases f with
  | empty =>
      simp [Ts.def_decls, Ts.transform_subschema, Ts.transform_for_id,
        Ts.decl_names, Ts.decl_name]
  | ref d => simp [Form.isRef] at h
  | typ t =>
      cases t <;>
        simp [Ts.def_decls, Ts.transform_subschema, Ts.transform_for_id,
          Ts.decl_names, Ts.decl_name]
  | enum vals =>
      simp [Ts.def_decls, Ts.transform_subschema, Ts.transform_for_id,
        Ts.decl_names, Ts.decl_name]
  | elements sub =>
      rcases hsub : Ts.transform_subschema [name] sub with ⟨ds, a⟩
      simp [Ts.def_decls, Ts.transform_subschema, hsub, Ts.transform_for_id,
        Ts.decl_names, Ts.decl_name]
  | properties req opt b =>
      rcases h1 : Ts.transform_props [name] true req with ⟨ds1, ps1⟩
      rcases h2 : Ts.transform_props [name] false opt with ⟨ds2, ps2⟩
      simp [Ts.def_decls, Ts.transform_subschema, h1, h2, Ts.transform_for_id,
        Ts.decl_names, Ts.decl_name]
  | values sub =>
      rcases hsub : Ts.transform_subschema [name] sub with ⟨ds, a⟩
      simp [Ts.def_decls, Ts.transform_subschema, hsub, Ts.transform_for_id,
        Ts.decl_names, Ts.decl_name]
  | discriminator tag mapping =>
      rcases hc : Ts.transform_cases [name] tag mapping with ⟨ds, cs⟩
      simp [Ts.def_decls, Ts.transform_subschema, hc, Ts.transform_for_id,
        Ts.decl_names, Ts.decl_name]

/-- Every definition whose form is not `Ref` leaves a declaration named by
its own one-segment path in the Go output. -/
theorem go_def_decls_mem (name : String) (f : Form) (h : f.isRef = false) :
    path_to_identifier [name] ∈ Go.decl_names (Go.def_decls name f) := by
  cases f with
  | empty =>
      simp [Go.def_decls, Go.transform_subschema, Go.transform_for_id,
        Go.decl_names, Go.decl_name]
  | ref d => simp [Form.isRef] at h
  | typ t =>
      cases t <;>
        simp [Go.def_decls, Go.transform_subschema, Go.transform_for_id,
          Go.decl_names, Go.decl_name]
  | enum vals =>
      simp [Go.def_decls, Go.transform_subschema, Go.transform_for_id,
        Go.decl_names, Go.decl_name]
  | elements sub =>
      rcases hsub : Go.transform_subschema [name] sub with ⟨ds, a⟩
      simp [Go.def_decls, Go.transform_subschema, hsub, Go.transform_for_id,
        Go.decl_names, Go.decl_name]
  | properties req opt b =>
      rcases h1 : Go.transform_props [name] true req with ⟨ds1, ps1⟩
      rcases h2 : Go.transform_props [name] false opt with ⟨ds2, ps2⟩
      simp [Go.def_decls, Go.transform_subschema, h1, h2, Go.transform_for_id,
        Go.decl_names, Go.decl_name]
  | values sub =>
      rcases hsub : Go.transform_subschema [name] sub with ⟨ds, a⟩
      simp [Go.def_decls, Go.transform_subschema, hsub, Go.transform_for_id,
        Go.decl_names, Go.decl_name]
  | discriminator tag mapping =>
      rcases hc : Go.transform_cases [name] mapping with ⟨ds, cs⟩
      simp [Go.def_decls, Go.transform_subschema, hc, Go.transform_for_id,
        Go.decl_names, Go.decl_name]

theorem ts_mem_transform_defs (name : String) (f : Form)
    (defs : List (String × Form)) (hm : (name, f) ∈ defs)
    (h : f.isRef = false) :
    path_to_identifier [name] ∈ Ts.decl_names (Ts.transform_defs defs) := by
  induction defs with
  | nil => cases hm
  | cons x rest ih =>
      obtain ⟨n, g⟩ := x
      rw [Ts.transform_defs, ts_decl_names_append, List.mem_append]
      rcases List.mem_cons.mp hm with heq | hmt
      · obtain ⟨rfl, rfl⟩ := Prod.mk.injEq .. ▸ heq
        exact Or.inl (ts_def_decls_mem name f h)
      · exact Or.inr (ih hmt)

theorem go_mem_transform_defs (name : String) (f : Form)
    (defs : List (String × Form)) (hm : (name, f) ∈ defs)
    (h : f.isRef = false) :
    path_to_identifier [name] ∈ Go.decl_names (Go.transform_defs defs) := by
  induction defs with
  | nil => cases hm
  | cons x rest ih =>
      obtain ⟨n, g⟩ := x
      rw [Go.transform_defs, go_decl_names_append, List.mem_append]
      rcases List.mem_cons.mp hm with heq | hmt
      · obtain ⟨rfl, rfl⟩ := Prod.mk.injEq .. ▸ heq
        exact Or.inl (go_def_decls_mem name f h)
      · exact Or.inr (ih hmt)

/-- C3 counterexample: a definition or root of `Ref` form yields no
declaration under its own path-derived identifier — transforming a schema
whose root is `Ref("foo")` leaves no declaration named `Root` in either
backend, refuting "a type-alias declaration is appended for every form,
including Ref" and "exactly one named top-level declaration". -/
theorem c3_cx_ref_root_yields_no_declaration :
    path_to_identifier ["Root"] ∉
      Ts.decl_names (Ts.transform "Root" ⟨[("foo", .empty)], .ref "foo"⟩) ∧
    path_to_identifier ["Root"] ∉
      Go.decl_names (Go.transform "Root" ⟨[("foo", .empty)], .ref "foo"⟩) := by
  constructor <;> decide

/-- C3 (amended): after transforming a definition or the document root, a
type-alias declaration binding the node's path-derived identifier is
appended exactly when the returned inline expression is not already a named
declaration or an identifier reference; consequently every definition and
root whose form is not `Ref` reaches exactly the output under its own
path-derived identifier, while a `Ref`-form node contributes no declaration
at all (its inline expression is already an identifier — the referenced
definition's — so the coercion is skipped). -/
theorem c3_top_level_coercion :
    (∀ (name : String) (f : Form), f.isRef = false →
      path_to_identifier [name] ∈ Ts.decl_names (Ts.def_decls name f) ∧
      path_to_identifier [name] ∈ Go.decl_names (Go.def_decls name f)) ∧
    (∀ (name def_name : String),
      Ts.def_decls name (.ref def_name) = [] ∧
      Go.def_decls name (.ref def_name) = []) :=
  ⟨fun name f h => ⟨ts_def_decls_mem name f h, go_def_decls_mem name f h⟩,
   fun _ _ => ⟨rfl, rfl⟩⟩

/-- C3 witness: the coercion theorem at a concrete non-Ref definition. -/
theorem c3_witness :
    Form.empty.isRef = false ∧
    path_to_identifier ["foo"] ∈ Ts.decl_names (Ts.def_decls "foo" .empty) ∧
    path_to_identifier ["foo"] ∈ Go.decl_names (Go.def_decls "foo" .empty) :=
  ⟨rfl, (c3_top_level_coercion.1 "foo" .empty rfl).1,
    (c3_top_level_coercion.1 "foo" .empty rfl).2⟩

/-- C4 counterexample: `Ref("a")` transforms to the identifier derived from
`["a"]`, but when the definition bound to `a` is itself a `Ref`, no
declaration carrying that identifier ever appears in the output — the
reference dangles in both backends. -/
theorem c4_cx_ref_to_ref_definition_dangles :
    Ts.transform_subschema ["Root"] (.ref "a") = ([], .ident "A") ∧
    "A" ∉ Ts.decl_names
      (Ts.transform "Root" ⟨[("a", .ref "b"), ("b", .empty)], .ref "a"⟩) ∧
    "A" ∉ Go.decl_names
      (Go.transform "Root" ⟨[("a", .ref "b"), ("b", .empty)], .ref "a"⟩) :=
  ⟨rfl, by decide, by decide⟩

/-- C4 (amended): every `Ref(name)` node transforms, in both backends, to an
inline reference whose identifier is the namer applied to the one-segment
path `[name]`; and whenever the schema's definitions bind `name` to a form
that is not itself a `Ref`, the transformed output contains a declaration
carrying exactly that identifier. -/
theorem c4_naming_round_trip :
    (∀ (path : List String) (name : String),
      Ts.transform_subschema path (.ref name) =
        ([], .ident (path_to_identifier [name])) ∧
      Go.transform_subschema path (.ref name) =
        ([], .ident (path_to_identifier [name]))) ∧
    (∀ (root_name : String) (s : Schema) (name : String) (f : Form),
      (name, f) ∈ s.definitions → f.isRef = false →
      path_to_identifier [name] ∈ Ts.decl_names (Ts.transform root_name s) ∧
      path_to_identifier [name] ∈ Go.decl_names (Go.transform root_name s)) := by
  refine ⟨fun _ _ => ⟨rfl, rfl⟩, fun root_name s name f hm h => ⟨?_, ?_⟩⟩
  · rw [Ts.transform, ts_decl_names_append, List.mem_append]
    exact Or.inl (ts_mem_transform_defs name f s.definitions hm h)
  · rw [Go.transform, go_decl_names_append, List.mem_append]
    exact Or.inl (go_mem_transform_defs name f s.definitions hm h)

/-- C4 witness: the naming round-trip at a concrete schema. -/
theorem c4_witness :
    (("foo", Form.empty) ∈
      (Schema.mk [("foo", Form.empty)] Form.empty).definitions) ∧
    Form.empty.isRef = false ∧
    path_to_identifier ["foo"] ∈
      Ts.decl_names (Ts.transform "Root" ⟨[("foo", .empty)], .empty⟩) ∧
    path_to_identifier ["foo"] ∈
      Go.decl_names (Go.transform "Root" ⟨[("foo", .empty)], .empty⟩) := by
  have hm : ("foo", Form.empty) ∈
      (Schema.mk [("foo", Form.empty)] Form.empty).definitions :=
    List.mem_singleton.mpr rfl
  exact ⟨hm, rfl,
    (c4_naming_round_trip.2 "Root" ⟨[("foo", .empty)], .empty⟩ "foo" .empty hm rfl).1,
    (c4_naming_round_trip.2 "Root" ⟨[("foo", .empty)], .empty⟩ "foo" .empty hm rfl).2⟩

/-! ## Round-trip lemmas for the generated codec -/

mutual
theorem unmarshal_marshal (t : GoTy) (v : GoVal) (h : wellTyped t v = true) :
    unmarshalVal t (marshalVal v) = some v := by
  cases v with
  | boolean b => cases t <;> simp_all [wellTyped, marshalVal, unmarshalVal]
  | number n => cases t <;> simp_all [wellTyped, marshalVal, unmarshalVal]
  | string s => cases t <;> simp_all [wellTyped, marshalVal, unmarshalVal]
  | time s => cases t <;> simp_all [wellTyped, marshalVal, unmarshalVal]
  | any j =>
      cases t <;> simp_all [wellTyped, marshalVal]
      cases j <;> rfl
  | array l =>
      cases t with
      | array te =>
          rw [wellTyped] at h
          simp only [marshalVal, unmarshalVal, unmarshal_marshal_list te l h]
      | _ => simp_all [wellTyped]
  | map l =>
      cases t with
      | map te =>
          rw [wellTyped, Bool.and_eq_true] at h
          simp only [marshalVal, unmarshalVal,
            unmarshal_marshal_entries te l h.1]
      | _ => simp_all [wellTyped]

theorem unmarshal_marshal_list (t : GoTy) (l : List GoVal)
    (h : wellTypedList t l = true) :
    unmarshalValList t (marshalValList l) = some l := by
  cases l with
  | nil => rfl
  | cons v rest =>
      rw [wellTypedList, Bool.and_eq_true] at h
      simp only [marshalValList, unmarshalValList, unmarshal_marshal t v h.1,
        unmarshal_marshal_list t rest h.2]

theorem unmarshal_marshal_entries (t : GoTy) (l : List (String × GoVal))
    (h : wellTypedEntries t l = true) :
    unmarshalValEntries t (marshalValEntries l) = some l := by
  cases l with
  | nil => rfl
  | cons e rest =>
      obtain ⟨k, v⟩ := e
      rw [wellTypedEntries, Bool.and_eq_true] at h
      simp only [marshalValEntries, unmarshalValEntries,
        unmarshal_marshal t v h.1, unmarshal_marshal_entries t rest h.2]
end

/-- A Go-empty well-typed value is the zero value of its type, so a field
omitted by `omitempty` is restored exactly by unmarshalling's zero default. -/
theorem isEmpty_eq_zero (t : GoTy) (v : GoVal) (hw : wellTyped t v = true)
    (he : isEmptyGo v = true) : v = zeroOf t := by
  cases v with
  | boolean b => cases t <;> simp_all [wellTyped, isEmptyGo, zeroOf]
  | number n => cases t <;> simp_all [wellTyped, isEmptyGo, zeroOf]
  | string s => cases t <;> simp_all [wellTyped, isEmptyGo, zeroOf]
  | time s => cases t <;> simp_all [wellTyped, isEmptyGo, zeroOf]
  | any j =>
      cases t <;> simp_all [wellTyped]
      cases j <;> simp_all [isEmptyGo, zeroOf]
  | array l => cases t <;> simp_all [wellTyped, isEmptyGo, zeroOf]
  | map l => cases t <;> simp_all [wellTyped, isEmptyGo, zeroOf]

/-- In a list with pairwise-distinct keys, `find?` by the key of a member
returns that member. -/
theorem find?_key_of_mem {α : Type} (key : α → String) (l : List α) (a : α)
    (hm : a ∈ l) (hn : (l.map key).Nodup) :
    l.find? (fun x => key x == key a) = some a := by
  induction l with
  | nil => cases hm
  | cons b t ih =>
      rw [List.map_cons, List.nodup_cons] at hn
      rcases List.mem_cons.mp hm with rfl | hmt
      · exact List.find?_cons_of_pos _ (by simp)
      · have hne : key b ≠ key a := by
          intro e
          exact hn.1 (by rw [e]; exact List.mem_map_of_mem key hmt)
        rw [List.find?_cons_of_neg _ (by simp [hne]), ih hmt hn.2]

/-- Every binding emitted for the embedded variant struct is keyed by one of
the variant's field wire names. -/
theorem structFieldsJson_keys (tw : String) (fs : List GoField)
    (vs : List GoVal) (p : String × Json)
    (hp : p ∈ structFieldsJson tw fs vs) : p.1 ∈ fs.map GoField.wire := by
  induction fs generalizing vs with
  | nil => simp [structFieldsJson] at hp
  | cons f fs ih =>
      cases vs with
      | nil => simp [structFieldsJson] at hp
      | cons v vs =>
          simp only [structFieldsJson] at hp
          rw [List.map_cons]
          split at hp
          · exact List.mem_cons_of_mem _ (ih vs hp)
          · split at hp
            · exact List.mem_cons_of_mem _ (ih vs hp)
            · rcases List.mem_cons.mp hp with rfl | hpt
              · exact List.mem_cons_self _ _
              · exact List.mem_cons_of_mem _ (ih vs hpt)

/-- Keys absent from every binding look up to nothing. -/
theorem jsonLookup_eq_none {k : String} {l : List (String × Json)}
    (h : ∀ p ∈ l, p.1 ≠ k) : jsonLookup k l = none := by
  induction l with
  | nil => rfl
  | cons p rest ih =>
      obtain ⟨k', v⟩ := p
      have hr : jsonLookup k rest = none :=
        ih (fun q hq => h q (List.mem_cons_of_mem _ hq))
      simp only [jsonLookup, hr]
      exact if_neg (h (k', v) (List.mem_cons_self _ _))

/-- A binding with a different key is transparent to lookup. -/
theorem jsonLookup_cons_ne {k k' : String} {v : Json}
    {rest : List (String × Json)} (h : k' ≠ k) :
    jsonLookup k ((k', v) :: rest) = jsonLookup k rest := by
  cases hr : jsonLookup k rest with
  | some r => simp only [jsonLookup, hr]
  | none => simp only [jsonLookup, hr]; exact if_neg h

/-- Looking a field's wire name up in the emitted variant bindings yields
exactly that field's marshalled value, or nothing when it was omitted as
empty. -/
theorem jsonLookup_structFieldsJson (tw : String) (fs : List GoField)
    (vs : List GoVal) (hnd : (fs.map GoField.wire).Nodup)
    (htw : tw ∉ fs.map GoField.wire) :
    ∀ f v, (f, v) ∈ fs.zip vs →
      jsonLookup f.wire (structFieldsJson tw fs vs) =
        if isEmptyGo v then none else some (marshalVal v) := by
  induction fs generalizing vs with
  | nil => intro f v hm; simp at hm
  | cons f0 fs ih =>
      cases vs with
      | nil => intro f v hm; simp at hm
      | cons v0 vs =>
          intro f v hm
          rw [List.map_cons, List.nodup_cons] at hnd
          rw [List.map_cons] at htw
          have htw0 : f0.wire ≠ tw := by
            intro e
            exact htw (by rw [← e]; exact List.mem_cons_self _ _)
          have htwr : tw ∉ fs.map GoField.wire :=
            fun hx => htw (List.mem_cons_of_mem _ hx)
          have hsub : ∀ p ∈ structFieldsJson tw fs vs, p.1 ≠ f0.wire := by
            intro p hp e
            exact hnd.1 (by rw [← e]; exact structFieldsJson_keys tw fs vs p hp)
          rw [List.zip_cons_cons, List.mem_cons] at hm
          rcases hm with heq | hmt
          · injection heq with h1 h2
            subst h1; subst h2
            simp only [structFieldsJson, if_neg htw0]
            by_cases he : isEmptyGo v = true
            · rw [if_pos he, if_pos he]
              exact jsonLookup_eq_none hsub
            · rw [if_neg he, if_neg he]
              have hnone : jsonLookup f.wire (structFieldsJson tw fs vs) =
                  none := jsonLookup_eq_none hsub
              simp [jsonLookup, hnone]
          · have hf : f ∈ fs := (List.of_mem_zip hmt).1
            have hne : f0.wire ≠ f.wire := by
              intro e
              exact hnd.1 (by rw [e]; exact List.mem_map_of_mem _ hf)
            simp only [structFieldsJson, if_neg htw0]
            by_cases he0 : isEmptyGo v0 = true
            · rw [if_pos he0]
              exact ih vs hnd.2 htwr f v hmt
            · rw [if_neg he0, jsonLookup_cons_ne hne]
              exact ih vs hnd.2 htwr f v hmt

/-- Pass 2 over an object whose bindings carry each field's marshalled value
(or omit it as empty) restores exactly the original field values. -/
theorem unmarshalFields_encode (fs : List GoField) (vs : List GoVal)
    (L : List (String × Json)) (hw : fieldsWellTyped fs vs = true)
    (hl : ∀ f v, (f, v) ∈ fs.zip vs →
      jsonLookup f.wire L = if isEmptyGo v then none else some (marshalVal v)) :
    unmarshalFields fs L = some vs := by
  induction fs generalizing vs with
  | nil =>
      cases vs with
      | nil => rfl
      | cons v vs => simp [fieldsWellTyped] at hw
  | cons f fs ih =>
      cases vs with
      | nil => simp [fieldsWellTyped] at hw
      | cons v vs =>
          rw [fieldsWellTyped, Bool.and_eq_true] at hw
          have h0 := hl f v (by rw [List.zip_cons_cons]; exact List.mem_cons_self _ _)
          have ht : unmarshalFields fs L = some vs :=
            ih vs hw.2 (fun f' v' h' =>
              hl f' v' (by rw [List.zip_cons_cons]; exact List.mem_cons_of_mem _ h'))
          by_cases he : isEmptyGo v = true
          · rw [if_pos he] at h0
            have hz : zeroOf f.ty = v := (isEmpty_eq_zero f.ty v hw.1 he).symm
            simp only [unmarshalFields, h0, ht, hz]
          · rw [if_neg he] at h0
            have hm : unmarshalVal f.ty (marshalVal v) = some v :=
              unmarshal_marshal f.ty v hw.1
            simp only [unmarshalFields, h0, hm, ht]

/-- C1: for every case of a discriminator's mapping, encoding a holder whose
tag is that case's tag value and whose active variant is an instance of that
case's aggregate with any well-typed field values produces the flat tagged
object, and decoding that object reproduces the holder — same tag and
field-for-field-equal variant instance.  Hypotheses are the validator-
guaranteed invariants: distinct tag values, distinct variant type names,
distinct field wire names not containing the tag's wire name, and well-typed
field values. -/
theorem c1_discriminator_round_trip (tag_wire : String)
    (cases : List (String × GoStructDef)) (cname : String) (d : GoStructDef)
    (vs : List GoVal)
    (hmem : (cname, d) ∈ cases)
    (hkeys : (cases.map Prod.fst).Nodup)
    (hnames : (cases.map (fun c => c.2.name)).Nodup)
    (hwires : (d.fields.map GoField.wire).Nodup)
    (htw : tag_wire ∉ d.fields.map GoField.wire)
    (hw : fieldsWellTyped d.fields vs = true) :
    generatedMarshalJSON tag_wire cases ⟨cname, some ⟨d.name, vs⟩⟩ =
      .ok (.obj ((tag_wire, .string cname) ::
        structFieldsJson tag_wire d.fields vs)) ∧
    generatedUnmarshalJSON tag_wire cases
        (.obj ((tag_wire, .string cname) ::
          structFieldsJson tag_wire d.fields vs)) =
      some ⟨cname, some ⟨d.name, vs⟩⟩ := by
  have hfindT : cases.find? (fun c => c.2.name == d.name) = some (cname, d) :=
    find?_key_of_mem (fun c => c.2.name) cases (cname, d) hmem hnames
  have hkeysub : ∀ p ∈ structFieldsJson tag_wire d.fields vs, p.1 ≠ tag_wire :=
    fun p hp e => htw (e ▸ structFieldsJson_keys tag_wire d.fields vs p hp)
  constructor
  · simp only [generatedMarshalJSON, hfindT]
  · have hnone : jsonLookup tag_wire (structFieldsJson tag_wire d.fields vs) =
        none := jsonLookup_eq_none hkeysub
    have hlookupTag : jsonLookup tag_wire
        ((tag_wire, Json.string cname) :: structFieldsJson tag_wire d.fields vs) =
        some (.string cname) := by
      simp [jsonLookup, hnone]
    have hpass1 : pass1Tag tag_wire
        (.obj ((tag_wire, Json.string cname) ::
          structFieldsJson tag_wire d.fields vs)) = some cname := by
      simp only [pass1Tag, hlookupTag]
    have hfindC : cases.find? (fun c => c.1 == cname) = some (cname, d) :=
      find?_key_of_mem Prod.fst cases (cname, d) hmem hkeys
    have hstruct : unmarshalStruct d
        (.obj ((tag_wire, Json.string cname) ::
          structFieldsJson tag_wire d.fields vs)) = some vs := by
      simp only [unmarshalStruct]
      apply unmarshalFields_encode d.fields vs _ hw
      intro f v hm
      have hf : f ∈ d.fields := (List.of_mem_zip hm).1
      have hfw : f.wire ≠ tag_wire := by
        intro e
        exact htw (by rw [← e]; exact List.mem_map_of_mem _ hf)
      rw [jsonLookup_cons_ne (Ne.symm hfw)]
      exact jsonLookup_structFieldsJson tag_wire d.fields vs hwires htw f v hm
    simp only [generatedUnmarshalJSON, hpass1, hfindC, hstruct]

/-- C1 witness: the round trip at a concrete two-case mapping, every
hypothesis discharged at the input. -/
theorem c1_witness :
    (("circle", (⟨"RootCircle", [⟨"Radius", "radius", .number⟩]⟩ : GoStructDef)) ∈
      ([("circle", ⟨"RootCircle", [⟨"Radius", "radius", .number⟩]⟩),
        ("square", ⟨"RootSquare", [⟨"Side", "side", .number⟩]⟩)] :
        List (String × GoStructDef))) ∧
    fieldsWellTyped [⟨"Radius", "radius", GoTy.number⟩] [GoVal.number 5] = true ∧
    generatedMarshalJSON "type"
        [("circle", ⟨"RootCircle", [⟨"Radius", "radius", .number⟩]⟩),
          ("square", ⟨"RootSquare", [⟨"Side", "side", .number⟩]⟩)]
        ⟨"circle", some ⟨"RootCircle", [.number 5]⟩⟩ =
      .ok (.obj ((("type" : String), Json.string "circle") ::
        structFieldsJson "type" [⟨"Radius", "radius", .number⟩] [.number 5])) ∧
    generatedUnmarshalJSON "type"
        [("circle", ⟨"RootCircle", [⟨"Radius", "radius", .number⟩]⟩),
          ("square", ⟨"RootSquare", [⟨"Side", "side", .number⟩]⟩)]
        (.obj ((("type" : String), Json.string "circle") ::
          structFieldsJson "type" [⟨"Radius", "radius", .number⟩] [.number 5])) =
      some ⟨"circle", some ⟨"RootCircle", [.number 5]⟩⟩ := by
  have h := c1_discriminator_round_trip "type"
    [("circle", ⟨"RootCircle", [⟨"Radius", "radius", .number⟩]⟩),
      ("square", ⟨"RootSquare", [⟨"Side", "side", .number⟩]⟩)]
    "circle" ⟨"RootCircle", [⟨"Radius", "radius", .number⟩]⟩ [.number 5]
    (by decide) (by decide) (by decide) (by decide) (by decide) (by decide)
  exact ⟨by decide, by decide, h.1, h.2⟩
